import Mathlib

/-!
Shallow embedding of the text-segmentation core of TTS-AppleSilicon
(src/parser.py, class TextParser) together with the argument-validation
step of src/main.py's combine_audio_files.

Python strings are modelled as `List Char`; `min_segment_length : int` is
modelled as `Int`.  `str.strip()` and the regex class `\s` are modelled by
the ASCII whitespace characters (space, tab, newline, carriage return,
vertical tab, form feed); Python additionally treats a few rare Unicode
code points as whitespace, which the claims under study never involve.
-/

namespace TTS

/-- ASCII whitespace, the model of Python's `str.strip()` / regex `\s`
character class. -/
def pySpace (c : Char) : Bool :=
  c = ' ' || c = '\t' || c = '\n' || c = '\x0d' || c = '\x0b' || c = '\x0c'

/-- The sentence-ending punctuation class `[.!?]` of
`TextParser.sentence_end_pattern` (src/parser.py line 41). -/
def isPunct (c : Char) : Bool :=
  c = '.' || c = '!' || c = '?'

/-- Model of the dataclass `TextSegment` (src/parser.py lines 11-16):
`text`, optional `header` (Python `None` is `none`), and `is_header`. -/
structure TextSegment where
  text : List Char
  header : Option (List Char) := none
  is_header : Bool := false
deriving Repr, DecidableEq

/-- Model of Python `s.strip()`: remove leading and trailing whitespace. -/
def strip (s : List Char) : List Char :=
  ((s.dropWhile pySpace).reverse.dropWhile pySpace).reverse

/-- Model of Python `text.split('\x7b'.join ... )` — more precisely of
`text.split('\n')` (src/parser.py line 84): split at every newline,
keeping empty parts. -/
def splitLines : List Char → List (List Char)
  | [] => [[]]
  | c :: rest =>
    if c = '\n' then [] :: splitLines rest
    else
      match splitLines rest with
      | l :: ls => (c :: l) :: ls
      | [] => [[c]]

/-- Model of Python `'\n'.join(lines)` (src/parser.py line 96). -/
def joinLines : List (List Char) → List Char
  | [] => []
  | [l] => l
  | l :: ls => l ++ '\n' :: joinLines ls

/-- Model of `header_pattern.match(line)` for the regex
`^(#\x7b1,6\x7d)\s+(.+)$` (src/parser.py line 38) applied to an
already-stripped line, returning `group(2)` on success.  A match requires
a maximal run of 1 to 6 `#` characters (seven or more `#` can never
satisfy the pattern), then at least one whitespace character, then at
least one remaining character; greedy `\s+` makes `group(2)` start at the
first non-whitespace character after the run. -/
def headerMatch (line : List Char) : Option (List Char) :=
  let hashes := line.takeWhile (fun c => c = '#')
  let rest := line.dropWhile (fun c => c = '#')
  if 1 ≤ hashes.length ∧ hashes.length ≤ 6 ∧ rest.head?.any pySpace then
    let g2 := rest.dropWhile pySpace
    if g2 = [] then none else some g2
  else none

/-- The "save previous segment if it has content" step of
`TextParser._split_by_headers` (src/parser.py lines 94-102 and 119-127):
emit the accumulated lines as one content segment when the accumulator is
non-empty and its newline-joined, stripped text is non-empty. -/
def flushAcc (hdr : Option (List Char)) (acc : List (List Char)) : List TextSegment :=
  if acc = [] then []
  else
    let segText := strip (joinLines acc)
    if segText = [] then [] else [TextSegment.mk segText hdr false]

/-- The line-scanning loop of `TextParser._split_by_headers`
(src/parser.py lines 89-127), carrying `current_header` and the
accumulator `current_text`. -/
def headersGo : List (List Char) → Option (List Char) → List (List Char) → List TextSegment
  | [], hdr, acc => flushAcc hdr acc
  | line :: rest, hdr, acc =>
    match headerMatch (strip line) with
    | some g2 =>
      let ht := strip g2
      flushAcc hdr acc ++ TextSegment.mk ht (some ht) true :: headersGo rest (some ht) []
    | none =>
      if strip line = [] then headersGo rest hdr acc
      else headersGo rest hdr (acc ++ [line])

/-- Model of `TextParser._split_by_headers` (src/parser.py lines 73-129). -/
def splitByHeaders (text : List Char) : List TextSegment :=
  headersGo (splitLines text) none []

/-- Scanner realising `re.split` with the pattern `([.!?]+)\s+`
(src/parser.py line 151): a separator is a maximal run of sentence
punctuation immediately followed by at least one whitespace character;
the punctuation run is kept as its own part, the whitespace is consumed.
The result alternates text part / punctuation part and always ends with a
(possibly empty) text part. -/
def reSplitGo : Nat → List Char → List Char → List (List Char)
  | _, [], acc => [acc.reverse]
  | 0, s, acc => [acc.reverse ++ s]
  | fuel + 1, c :: rest, acc =>
    if isPunct c then
      let run := c :: rest.takeWhile isPunct
      let after := rest.dropWhile isPunct
      let ws := after.takeWhile pySpace
      let after2 := after.dropWhile pySpace
      if ws = [] then reSplitGo fuel rest (c :: acc)
      else acc.reverse :: run :: reSplitGo fuel after2 []
    else reSplitGo fuel rest (c :: acc)

/-- Model of `re.split(r'([.!?]+)\s+', text)` (src/parser.py line 151).
The fuel argument of `reSplitGo`, initialised to the input length, only
makes the recursion structural (and hence kernel-computable); every
recursive call strictly shortens the scanned list, so with this starting
value the fuel-exhausted branch is never reached. -/
def reSplitPunct (s : List Char) : List (List Char) :=
  reSplitGo s.length s []

/-- The sentence-reconstruction loop of `TextParser._split_by_punctuation`
(src/parser.py lines 154-171): pair up text part and punctuation part,
strip the candidate, and emit it only if it is non-empty and at least
`min_segment_length` long; `current_sentence` is reset after every
punctuation part, so too-short candidates are dropped.  Returns the
emitted segments together with the remaining text (the final unpaired
text part, Python's `current_sentence` after the loop). -/
def punctLoop (m : Int) (hdr : Option (List Char)) : List (List Char) → List TextSegment × List Char
  | [] => ([], [])
  | [t] => ([], t)
  | t :: p :: rest =>
    let st := strip (t ++ p)
    let emitted := if st ≠ [] ∧ (st.length : Int) ≥ m then [TextSegment.mk st hdr false] else []
    let r := punctLoop m hdr rest
    (emitted ++ r.1, r.2)

/-- The trailing-remainder handling of `TextParser._split_by_punctuation`
(src/parser.py lines 173-192), acting on the whole result list built so
far: a long-enough remainder becomes its own segment; a short non-empty
remainder is appended (space-joined) to the last result segment when that
exists and is not a header, mutating only its `text` field; otherwise it
becomes its own segment anyway. -/
def handleRemainder (m : Int) (hdr : Option (List Char)) (result : List TextSegment)
    (remainder : List Char) : List TextSegment :=
  if strip remainder = [] then result
  else
    let remaining := strip remainder
    if (remaining.length : Int) ≥ m then result ++ [TextSegment.mk remaining hdr false]
    else
      match result.getLast? with
      | some last =>
        if last.is_header = false then
          result.dropLast ++ [TextSegment.mk (last.text ++ ' ' :: remaining) last.header last.is_header]
        else result ++ [TextSegment.mk remaining hdr false]
      | none => result ++ [TextSegment.mk remaining hdr false]

/-- The per-segment loop of `TextParser._split_by_punctuation`
(src/parser.py lines 141-192): header segments pass through unchanged;
each content segment is regex-split, its candidates emitted by
`punctLoop`, and its remainder handled against the shared `result`
accumulator. -/
def punctGo (m : Int) : List TextSegment → List TextSegment → List TextSegment
  | [], result => result
  | seg :: rest, result =>
    if seg.is_header then punctGo m rest (result ++ [seg])
    else
      let r := punctLoop m seg.header (reSplitPunct seg.text)
      punctGo m rest (handleRemainder m seg.header (result ++ r.1) r.2)

/-- Model of `TextParser._split_by_punctuation` (src/parser.py lines 131-194). -/
def splitByPunctuation (m : Int) (segs : List TextSegment) : List TextSegment :=
  punctGo m segs []

/-- The pre-split stage of `TextParser.parse` (src/parser.py lines 58-62):
header splitting when enabled, otherwise the whole stripped document as a
single content segment. -/
def initialSegments (split_by_headers : Bool) (text : List Char) : List TextSegment :=
  if split_by_headers then splitByHeaders text
  else [TextSegment.mk (strip text) none false]

/-- Model of `TextParser.parse` (src/parser.py lines 43-71) with the
parser's three configuration fields as arguments. -/
def parse (split_by_headers split_by_punctuation : Bool) (m : Int) (text : List Char) :
    List TextSegment :=
  if strip text = [] then []
  else
    let segs := initialSegments split_by_headers text
    let segs := if split_by_punctuation then splitByPunctuation m segs else segs
    segs.filter (fun s => ((strip s.text).length : Int) ≥ m)

/-! Exception-explicit variants.  The only operations in `TextParser`
that can raise at runtime are the two `result[-1]` subscripts in
`_split_by_punctuation` (src/parser.py lines 184-185), which Python
guards with the truthiness test `if result and not result[-1].is_header`.
The `...E` definitions below make that potential `IndexError` explicit in
an `Except` result while keeping the source's guard structure, so that
"parse never raises" is a provable statement rather than a modelling
artefact. -/

/-- Model of the Python subscript `l[-1]`: the last element, or an
`IndexError` on an empty list. -/
def pyNegOneIndex (l : List TextSegment) : Except String TextSegment :=
  match l.getLast? with
  | some s => .ok s
  | none => .error "IndexError: list index out of range"

/-- Model of the Python statement `l[-1].text = t` (the effect of
`result[-1].text += ...`, src/parser.py line 185): replace the last
element's `text` field, or raise `IndexError` on an empty list. -/
def pySetLastText (l : List TextSegment) (t : List Char) : Except String (List TextSegment) :=
  match l.getLast? with
  | some last => .ok (l.dropLast ++ [TextSegment.mk t last.header last.is_header])
  | none => .error "IndexError: list index out of range"

/-- Exception-explicit version of `handleRemainder`, mirroring the
short-circuit evaluation of `if result and not result[-1].is_header`
(src/parser.py line 184): `result[-1]` is only evaluated when `result`
is non-empty. -/
def handleRemainderE (m : Int) (hdr : Option (List Char)) (result : List TextSegment)
    (remainder : List Char) : Except String (List TextSegment) :=
  if strip remainder = [] then .ok result
  else
    let remaining := strip remainder
    if (remaining.length : Int) ≥ m then .ok (result ++ [TextSegment.mk remaining hdr false])
    else
      match result with
      | [] => .ok (result ++ [TextSegment.mk remaining hdr false])
      | _ :: _ =>
        match pyNegOneIndex result with
        | .error e => .error e
        | .ok last =>
          if last.is_header = false then pySetLastText result (last.text ++ ' ' :: remaining)
          else .ok (result ++ [TextSegment.mk remaining hdr false])

/-- Exception-explicit version of `punctGo`. -/
def punctGoE (m : Int) : List TextSegment → List TextSegment → Except String (List TextSegment)
  | [], result => .ok result
  | seg :: rest, result =>
    if seg.is_header then punctGoE m rest (result ++ [seg])
    else
      let r := punctLoop m seg.header (reSplitPunct seg.text)
      match handleRemainderE m seg.header (result ++ r.1) r.2 with
      | .ok result2 => punctGoE m rest result2
      | .error e => .error e

/-- Exception-explicit version of `parse`. -/
def parseE (split_by_headers split_by_punctuation : Bool) (m : Int) (text : List Char) :
    Except String (List TextSegment) :=
  if strip text = [] then .ok []
  else
    let segs := initialSegments split_by_headers text
    match (if split_by_punctuation then punctGoE m segs [] else .ok segs) with
    | .ok segs2 => .ok (segs2.filter (fun s => ((strip s.text).length : Int) ≥ m))
    | .error e => .error e

/-- Outcome of the modelled prefix of `combine_audio_files`. -/
inductive CombineOutcome where
  | raiseValueError (msg : String)
  | proceed (segment_files : List String) (output_path : String) (normalize : Bool)
deriving Repr, DecidableEq

/-- Model of the argument-validation prefix of `combine_audio_files`
(src/main.py lines 56-66): the emptiness test `if not segment_files`
raises `ValueError("No audio files to combine")` before any directory
creation, temp-file write, or ffmpeg invocation.  Everything after the
check is filesystem and ffmpeg I/O (an external collaborator per the
spec) and is abstracted as the `proceed` outcome carrying the arguments
handed to it. -/
def combine_audio_files (segment_files : List String) (output_path : String)
    (normalize : Bool) : CombineOutcome :=
  if segment_files = [] then .raiseValueError "No audio files to combine"
  else .proceed segment_files output_path normalize

/-! Helper notions used by the claims. -/

/-- Concatenation, in order, of the `text` fields of a segment list. -/
def segTexts (segs : List TextSegment) : List Char :=
  (segs.map TextSegment.text).flatten

/-- The non-whitespace characters of a string, in order. -/
def nonWs (s : List Char) : List Char :=
  s.filter (fun c => !pySpace c)

/-- The candidate sentences assembled by the loop of src/parser.py lines
154-171 from the alternating text part / punctuation part list: each
candidate is one text part concatenated with its following punctuation
part (before stripping). -/
def candPairs : List (List Char) → List (List Char)
  | t :: p :: rest => (t ++ p) :: candPairs rest
  | _ => []

/-! Basic facts about `strip` and `nonWs`. -/

theorem mem_dropWhile_of_neg {p : Char → Bool} {c : Char} {l : List Char}
    (hc : c ∈ l) (hp : p c = false) : c ∈ l.dropWhile p := by
  induction l with
  | nil => cases hc
  | cons a t ih =>
    by_cases ha : p a
    · rw [List.dropWhile_cons_of_pos ha]
      rcases List.mem_cons.mp hc with h | h
      · exact absurd (h ▸ ha) (by simp [hp])
      · exact ih h
    · rw [List.dropWhile_cons_of_neg ha]
      exact hc

theorem dropWhile_head_neg {p : Char → Bool} {c : Char} {l t : List Char}
    (h : l.dropWhile p = c :: t) : p c = false := by
  induction l with
  | nil => simp at h
  | cons a s ih =>
    by_cases ha : p a
    · rw [List.dropWhile_cons_of_pos ha] at h
      exact ih h
    · rw [List.dropWhile_cons_of_neg ha] at h
      cases h
      simpa using ha

theorem mem_strip {c : Char} {s : List Char} (hc : c ∈ s) (hp : pySpace c = false) :
    c ∈ strip s := by
  unfold strip
  rw [List.mem_reverse]
  exact mem_dropWhile_of_neg (List.mem_reverse.mpr (mem_dropWhile_of_neg hc hp)) hp

theorem strip_ne_nil_of_mem {c : Char} {s : List Char} (hc : c ∈ s) (hp : pySpace c = false) :
    strip s ≠ [] := by
  intro h
  have hm := mem_strip hc hp
  rw [h] at hm
  cases hm

theorem strip_eq_nil_iff {s : List Char} : strip s = [] ↔ ∀ c ∈ s, pySpace c = true := by
  constructor
  · intro h c hc
    by_contra hcw
    exact strip_ne_nil_of_mem hc (by simpa using hcw) h
  · intro h
    unfold strip
    have h1 : s.dropWhile pySpace = [] := List.dropWhile_eq_nil_iff.mpr (fun c hc => h c hc)
    simp [h1]

theorem exists_of_strip_ne_nil {s : List Char} (h : strip s ≠ []) :
    ∃ c ∈ s, pySpace c = false := by
  by_contra hall
  push_neg at hall
  exact h (strip_eq_nil_iff.mpr (fun c hc => by simpa using hall c hc))

theorem strip_strip_ne_nil {s : List Char} (h : strip s ≠ []) : strip (strip s) ≠ [] := by
  obtain ⟨c, hc, hcw⟩ := exists_of_strip_ne_nil h
  exact strip_ne_nil_of_mem (mem_strip hc hcw) hcw

theorem nonWs_append (a b : List Char) : nonWs (a ++ b) = nonWs a ++ nonWs b := by
  simp [nonWs]

theorem nonWs_dropWhile (l : List Char) : nonWs (l.dropWhile pySpace) = nonWs l := by
  induction l with
  | nil => rfl
  | cons a t ih =>
    by_cases ha : pySpace a
    · rw [List.dropWhile_cons_of_pos ha, ih]
      simp [nonWs, ha]
    · rw [List.dropWhile_cons_of_neg ha]

theorem nonWs_reverse (l : List Char) : nonWs l.reverse = (nonWs l).reverse := by
  simp [nonWs]

theorem nonWs_strip (s : List Char) : nonWs (strip s) = nonWs s := by
  unfold strip
  rw [nonWs_reverse, nonWs_dropWhile, nonWs_reverse, List.reverse_reverse, nonWs_dropWhile]

theorem nonWs_eq_nil_of_strip {s : List Char} (h : strip s = []) : nonWs s = [] := by
  rw [← nonWs_strip, h]
  rfl

/-! Facts about `splitLines` and `joinLines`. -/

theorem splitLines_ne_nil (s : List Char) : splitLines s ≠ [] := by
  cases s with
  | nil => simp [splitLines]
  | cons c rest =>
    unfold splitLines
    by_cases hc : c = '\n'
    · simp [hc]
    · simp only [if_neg hc]
      cases h : splitLines rest <;> simp

theorem joinLines_cons_cons (c : Char) (l : List Char) (ls : List (List Char)) :
    joinLines ((c :: l) :: ls) = c :: joinLines (l :: ls) := by
  cases ls <;> simp [joinLines]

theorem joinLines_splitLines (s : List Char) : joinLines (splitLines s) = s := by
  induction s with
  | nil => rfl
  | cons c rest ih =>
    unfold splitLines
    by_cases hc : c = '\n'
    · simp only [if_pos hc]
      obtain ⟨l, ls, hl⟩ : ∃ l ls, splitLines rest = l :: ls := by
        cases h : splitLines rest with
        | nil => exact absurd h (splitLines_ne_nil rest)
        | cons l ls => exact ⟨l, ls, rfl⟩
      rw [hl] at ih ⊢
      simp [joinLines, hc, ih]
    · simp only [if_neg hc]
      obtain ⟨l, ls, hl⟩ : ∃ l ls, splitLines rest = l :: ls := by
        cases h : splitLines rest with
        | nil => exact absurd h (splitLines_ne_nil rest)
        | cons l ls => exact ⟨l, ls, rfl⟩
      rw [hl] at ih ⊢
      rw [joinLines_cons_cons, ih]

theorem nonWs_joinLines (ls : List (List Char)) :
    nonWs (joinLines ls) = (ls.map nonWs).flatten := by
  induction ls with
  | nil => rfl
  | cons l ls ih =>
    cases ls with
    | nil => simp [joinLines, nonWs]
    | cons l2 ls2 =>
      show nonWs (l ++ '\n' :: joinLines (l2 :: ls2)) = _
      rw [nonWs_append]
      have hnl : (!pySpace '\n') = false := by decide
      have : nonWs ('\n' :: joinLines (l2 :: ls2)) = nonWs (joinLines (l2 :: ls2)) := by
        simp [nonWs, List.filter_cons, hnl]
      rw [this, ih]
      simp

theorem nonWs_splitLines (s : List Char) : ((splitLines s).map nonWs).flatten = nonWs s := by
  rw [← nonWs_joinLines, joinLines_splitLines]

theorem nonWs_space_cons (l : List Char) : nonWs (' ' :: l) = nonWs l := by
  have h : (!pySpace ' ') = false := by decide
  simp [nonWs, List.filter_cons, h]

theorem nonWs_takeWhile_pySpace (l : List Char) : nonWs (l.takeWhile pySpace) = [] := by
  induction l with
  | nil => rfl
  | cons a t ih =>
    by_cases h : pySpace a
    · rw [List.takeWhile_cons_of_pos h]
      simpa [nonWs, List.filter_cons, h] using ih
    · rw [List.takeWhile_cons_of_neg (by simp [h])]
      rfl

theorem length_dropWhile_le (p : Char → Bool) (l : List Char) :
    (l.dropWhile p).length ≤ l.length := by
  induction l with
  | nil => simp
  | cons a t ih =>
    by_cases h : p a
    · rw [List.dropWhile_cons_of_pos h]
      have := ih
      simp only [List.length_cons]
      omega
    · rw [List.dropWhile_cons_of_neg (by simp [h])]

/-! Sublist helpers and `segTexts` distribution. -/

theorem flatten_sublist {α : Type} {l1 l2 : List (List α)} (h : l1.Sublist l2) :
    l1.flatten.Sublist l2.flatten := by
  induction h with
  | slnil => simp
  | cons a _ ih =>
    simp only [List.flatten_cons]
    exact ih.trans (List.sublist_append_right a _)
  | cons₂ a _ ih =>
    simp only [List.flatten_cons]
    exact ih.append_left a

theorem segTexts_cons (s : TextSegment) (segs : List TextSegment) :
    segTexts (s :: segs) = s.text ++ segTexts segs := by
  simp [segTexts]

theorem segTexts_append (a b : List TextSegment) :
    segTexts (a ++ b) = segTexts a ++ segTexts b := by
  simp [segTexts]

theorem segTexts_singleton (s : TextSegment) : segTexts [s] = s.text := by
  simp [segTexts]

/-! Header-splitting stage: no characters invented (modulo whitespace). -/

theorem flushAcc_nonWs (hdr : Option (List Char)) (acc : List (List Char)) :
    (nonWs (segTexts (flushAcc hdr acc))).Sublist ((acc.map nonWs).flatten) := by
  unfold flushAcc
  by_cases ha : acc = []
  · simp [ha, segTexts, nonWs]
  · simp only [if_neg ha]
    by_cases hs : strip (joinLines acc) = []
    · simp [hs, segTexts, nonWs]
    · simp only [if_neg hs]
      have he : nonWs (segTexts [TextSegment.mk (strip (joinLines acc)) hdr false]) =
          (acc.map nonWs).flatten := by
        simp [segTexts, nonWs_strip, nonWs_joinLines]
      exact he ▸ List.Sublist.refl _

theorem headerMatch_eq {line g2 : List Char} (h : headerMatch line = some g2) :
    g2 = (line.dropWhile (fun c => c = '#')).dropWhile pySpace ∧ g2 ≠ [] := by
  simp only [headerMatch] at h
  split at h
  · by_cases hg : (line.dropWhile (fun c => c = '#')).dropWhile pySpace = []
    · rw [if_pos hg] at h
      cases h
    · rw [if_neg hg] at h
      cases h
      exact ⟨rfl, hg⟩
  · cases h

theorem headerMatch_sublist {line g2 : List Char} (h : headerMatch line = some g2) :
    g2.Sublist line := by
  obtain ⟨hg, -⟩ := headerMatch_eq h
  rw [hg]
  exact (List.dropWhile_sublist _).trans (List.dropWhile_sublist _)

theorem headerMatch_strip_ne {line g2 : List Char} (h : headerMatch line = some g2) :
    strip g2 ≠ [] := by
  obtain ⟨hg, hne⟩ := headerMatch_eq h
  obtain ⟨c, t, hct⟩ : ∃ c t, g2 = c :: t := by
    cases g2 with
    | nil => exact absurd rfl hne
    | cons c t => exact ⟨c, t, rfl⟩
  have hdw : (line.dropWhile (fun c => c = '#')).dropWhile pySpace = c :: t := by
    rw [← hg, hct]
  have hcw : pySpace c = false := dropWhile_head_neg hdw
  rw [hct]
  exact strip_ne_nil_of_mem (List.mem_cons_self c t) hcw

theorem headersGo_nonWs (lines : List (List Char)) (hdr : Option (List Char))
    (acc : List (List Char)) :
    (nonWs (segTexts (headersGo lines hdr acc))).Sublist
      ((acc.map nonWs).flatten ++ (lines.map nonWs).flatten) := by
  induction lines generalizing hdr acc with
  | nil => simpa using flushAcc_nonWs hdr acc
  | cons line rest ih =>
    rw [headersGo]
    cases hm : headerMatch (strip line) with
    | some g2 =>
      simp only [hm]
      have hA := flushAcc_nonWs hdr acc
      have hB : (nonWs (strip g2)).Sublist (nonWs line) := by
        rw [nonWs_strip]
        calc (nonWs g2).Sublist (nonWs (strip line)) :=
              List.Sublist.filter _ (headerMatch_sublist hm)
          _ = nonWs line := nonWs_strip line
      have hC := ih (some (strip g2)) []
      simp only [List.map_nil, List.flatten_nil, List.nil_append] at hC
      have hL : nonWs (segTexts (flushAcc hdr acc ++
          TextSegment.mk (strip g2) (some (strip g2)) true :: headersGo rest (some (strip g2)) [])) =
          nonWs (segTexts (flushAcc hdr acc)) ++
            (nonWs (strip g2) ++ nonWs (segTexts (headersGo rest (some (strip g2)) []))) := by
        rw [segTexts_append, segTexts_cons, nonWs_append, nonWs_append]
      rw [hL]
      simp only [List.map_cons, List.flatten_cons]
      exact hA.append (hB.append hC)
    | none =>
      simp only [hm]
      by_cases hb : strip line = []
      · rw [if_pos hb]
        have hnl : nonWs line = [] := by
          rw [← nonWs_strip, hb]
          rfl
        simp only [List.map_cons, List.flatten_cons, hnl, List.nil_append]
        exact ih hdr acc
      · rw [if_neg hb]
        have := ih hdr (acc ++ [line])
        simpa [List.append_assoc] using this

theorem splitByHeaders_nonWs (text : List Char) :
    (nonWs (segTexts (splitByHeaders text))).Sublist (nonWs text) := by
  have := headersGo_nonWs (splitLines text) none []
  simpa [splitByHeaders, nonWs_splitLines] using this

/-! Punctuation-splitting stage: no characters invented (modulo whitespace). -/

theorem reSplitGo_nonWs (fuel : Nat) :
    ∀ (s acc : List Char), s.length ≤ fuel →
      ((reSplitGo fuel s acc).map nonWs).flatten = nonWs acc.reverse ++ nonWs s := by
  induction fuel with
  | zero =>
    intro s acc h
    cases s with
    | nil => simp [reSplitGo, nonWs]
    | cons c rest => simp at h
  | succ fuel ih =>
    intro s acc h
    cases s with
    | nil => simp [reSplitGo, nonWs]
    | cons c rest =>
      simp only [reSplitGo]
      by_cases hc : isPunct c
      · simp only [if_pos hc]
        by_cases hw : (rest.dropWhile isPunct).takeWhile pySpace = []
        · rw [if_pos hw]
          rw [ih rest (c :: acc) (by simpa using h)]
          rw [List.reverse_cons, nonWs_append, List.append_assoc]
          congr 1
          show nonWs [c] ++ nonWs rest = nonWs (c :: rest)
          rw [← nonWs_append]
          rfl
        · rw [if_neg hw]
          have hlen : (((rest.dropWhile isPunct).dropWhile pySpace)).length ≤ fuel := by
            have h1 := length_dropWhile_le pySpace (rest.dropWhile isPunct)
            have h2 := length_dropWhile_le isPunct rest
            have h3 : rest.length ≤ fuel := by simpa using h
            omega
          simp only [List.map_cons, List.flatten_cons]
          rw [ih ((rest.dropWhile isPunct).dropWhile pySpace) [] hlen]
          have hrest : (c : Char) :: rest =
              (c :: rest.takeWhile isPunct) ++
                ((rest.dropWhile isPunct).takeWhile pySpace ++
                  (rest.dropWhile isPunct).dropWhile pySpace) := by
            rw [List.cons_append, List.takeWhile_append_dropWhile, List.takeWhile_append_dropWhile]
          conv_rhs => rw [hrest]
          rw [nonWs_append, nonWs_append, nonWs_takeWhile_pySpace]
          simp [nonWs]
      · simp only [if_neg hc]
        rw [ih rest (c :: acc) (by simpa using h)]
        rw [List.reverse_cons, nonWs_append, List.append_assoc]
        congr 1
        show nonWs [c] ++ nonWs rest = nonWs (c :: rest)
        rw [← nonWs_append]
        rfl

theorem reSplitPunct_nonWs (s : List Char) :
    ((reSplitPunct s).map nonWs).flatten = nonWs s := by
  have := reSplitGo_nonWs s.length s [] (Nat.le_refl _)
  simpa [reSplitPunct, nonWs] using this

theorem punctLoop_nonWs (m : Int) (hdr : Option (List Char)) :
    ∀ parts : List (List Char),
      (nonWs (segTexts (punctLoop m hdr parts).1) ++ nonWs (punctLoop m hdr parts).2).Sublist
        ((parts.map nonWs).flatten) := by
  intro parts
  induction parts using punctLoop.induct m hdr with
  | case1 => simp [punctLoop, segTexts, nonWs]
  | case2 t => simp [punctLoop, segTexts, nonWs]
  | case3 t p rest ih =>
    simp only [punctLoop]
    by_cases hcond : strip (t ++ p) ≠ [] ∧ ((strip (t ++ p)).length : Int) ≥ m
    · rw [if_pos hcond]
      have hL : nonWs (segTexts (TextSegment.mk (strip (t ++ p)) hdr false ::
            (punctLoop m hdr rest).1)) ++ nonWs (punctLoop m hdr rest).2 =
          nonWs (t ++ p) ++
            (nonWs (segTexts (punctLoop m hdr rest).1) ++ nonWs (punctLoop m hdr rest).2) := by
        rw [segTexts_cons, nonWs_append]
        show _ ++ _ = _
        rw [nonWs_strip, List.append_assoc]
      simp only [List.singleton_append, List.map_cons, List.flatten_cons]
      rw [hL]
      have : nonWs (t ++ p) = nonWs t ++ nonWs p := nonWs_append t p
      rw [this, List.append_assoc]
      exact (ih.append_left _).append_left _
    · rw [if_neg hcond]
      simp only [List.nil_append, List.map_cons, List.flatten_cons]
      exact (ih.trans (List.sublist_append_right _ _)).trans (List.sublist_append_right _ _)

theorem handleRemainder_nonWs (m : Int) (hdr : Option (List Char)) (result : List TextSegment)
    (rem : List Char) :
    nonWs (segTexts (handleRemainder m hdr result rem)) = nonWs (segTexts result) ++ nonWs rem := by
  simp only [handleRemainder]
  by_cases h0 : strip rem = []
  · simp [h0, nonWs_eq_nil_of_strip h0]
  · simp only [if_neg h0]
    by_cases h1 : ((strip rem).length : Int) ≥ m
    · rw [if_pos h1, segTexts_append, nonWs_append]
      congr 1
      rw [segTexts_singleton]
      exact nonWs_strip rem
    · rw [if_neg h1]
      rcases List.eq_nil_or_concat result with hres | ⟨init, last, hres⟩
      · subst hres
        rw [List.getLast?_nil]
        simp only [List.nil_append]
        rw [segTexts_singleton]
        show nonWs (strip rem) = nonWs (segTexts []) ++ nonWs rem
        rw [nonWs_strip]
        rfl
      · subst hres
        simp only [List.concat_eq_append]
        rw [List.getLast?_concat]
        simp only []
        by_cases h2 : last.is_header = false
        · rw [if_pos h2, List.dropLast_concat]
          rw [segTexts_append, segTexts_append, nonWs_append, nonWs_append]
          rw [List.append_assoc]
          congr 1
          rw [segTexts_singleton, segTexts_singleton]
          show nonWs (last.text ++ ' ' :: strip rem) = nonWs last.text ++ nonWs rem
          rw [nonWs_append, nonWs_space_cons, nonWs_strip]
        · rw [if_neg h2]
          rw [segTexts_append (init ++ [last]) [TextSegment.mk (strip rem) hdr false],
            nonWs_append, segTexts_singleton]
          congr 1
          exact nonWs_strip rem

theorem punctGo_nonWs (m : Int) :
    ∀ (segs result : List TextSegment),
      (nonWs (segTexts (punctGo m segs result))).Sublist
        (nonWs (segTexts result) ++ nonWs (segTexts segs)) := by
  intro segs
  induction segs with
  | nil =>
    intro result
    simp [punctGo, segTexts, nonWs]
  | cons seg rest ih =>
    intro result
    rw [punctGo]
    by_cases hh : seg.is_header
    · rw [if_pos hh]
      have h2 := ih (result ++ [seg])
      rw [segTexts_append, nonWs_append, segTexts_singleton, List.append_assoc] at h2
      rw [segTexts_cons, nonWs_append]
      exact h2
    · rw [if_neg hh]
      have hr := handleRemainder_nonWs m seg.header
        (result ++ (punctLoop m seg.header (reSplitPunct seg.text)).1)
        (punctLoop m seg.header (reSplitPunct seg.text)).2
      have hp : ((nonWs (segTexts (punctLoop m seg.header (reSplitPunct seg.text)).1) ++
            nonWs (punctLoop m seg.header (reSplitPunct seg.text)).2)).Sublist
          (nonWs seg.text) := by
        have := punctLoop_nonWs m seg.header (reSplitPunct seg.text)
        rwa [reSplitPunct_nonWs] at this
      have := ih (handleRemainder m seg.header
        (result ++ (punctLoop m seg.header (reSplitPunct seg.text)).1)
        (punctLoop m seg.header (reSplitPunct seg.text)).2)
      refine this.trans ?_
      rw [hr, segTexts_append, nonWs_append, segTexts_cons, nonWs_append]
      rw [List.append_assoc, List.append_assoc]
      refine List.Sublist.append_left ?_ _
      rw [← List.append_assoc]
      exact hp.append (List.Sublist.refl _)

theorem splitByPunctuation_nonWs (m : Int) (segs : List TextSegment) :
    (nonWs (segTexts (splitByPunctuation m segs))).Sublist (nonWs (segTexts segs)) := by
  have := punctGo_nonWs m segs []
  simpa [splitByPunctuation, segTexts, nonWs] using this

theorem sublist_segTexts {l1 l2 : List TextSegment} (h : l1.Sublist l2) :
    (segTexts l1).Sublist (segTexts l2) :=
  flatten_sublist (h.map TextSegment.text)

/-! Membership facts: which segments the stages can emit. -/

theorem mem_flushAcc {s : TextSegment} {hdr : Option (List Char)} {acc : List (List Char)}
    (h : s ∈ flushAcc hdr acc) :
    s.header = hdr ∧ s.is_header = false ∧ strip s.text ≠ [] := by
  simp only [flushAcc] at h
  by_cases ha : acc = []
  · rw [if_pos ha] at h
    cases h
  · rw [if_neg ha] at h
    by_cases hs : strip (joinLines acc) = []
    · rw [if_pos hs] at h
      cases h
    · rw [if_neg hs] at h
      rcases List.mem_singleton.mp h with rfl
      exact ⟨rfl, rfl, strip_strip_ne_nil hs⟩

theorem headersGo_strip_ne (lines : List (List Char)) (hdr : Option (List Char))
    (acc : List (List Char)) :
    ∀ s ∈ headersGo lines hdr acc, strip s.text ≠ [] := by
  induction lines generalizing hdr acc with
  | nil =>
    intro s hs
    exact (mem_flushAcc hs).2.2
  | cons line rest ih =>
    intro s hs
    rw [headersGo] at hs
    cases hm : headerMatch (strip line) with
    | some g2 =>
      rw [hm] at hs
      rcases List.mem_append.mp hs with h | h
      · exact (mem_flushAcc h).2.2
      · rcases List.mem_cons.mp h with rfl | h
        · exact strip_strip_ne_nil (headerMatch_strip_ne hm)
        · exact ih _ _ s h
    | none =>
      rw [hm] at hs
      by_cases hb : strip line = []
      · rw [if_pos hb] at hs
        exact ih _ _ s hs
      · rw [if_neg hb] at hs
        exact ih _ _ s hs

theorem headersGo_no_header {lines : List (List Char)}
    (hl : ∀ line ∈ lines, headerMatch (strip line) = none) :
    ∀ (acc : List (List Char)), ∀ s ∈ headersGo lines none acc,
      s.is_header = false ∧ s.header = none := by
  induction lines with
  | nil =>
    intro acc s hs
    exact ⟨(mem_flushAcc hs).2.1, (mem_flushAcc hs).1⟩
  | cons line rest ih =>
    intro acc s hs
    rw [headersGo] at hs
    rw [hl line (List.mem_cons_self line rest)] at hs
    by_cases hb : strip line = []
    · rw [if_pos hb] at hs
      exact ih (fun l hm => hl l (List.mem_cons_of_mem line hm)) acc s hs
    · rw [if_neg hb] at hs
      exact ih (fun l hm => hl l (List.mem_cons_of_mem line hm)) _ s hs

theorem punctLoop_fst_eq (m : Int) (hdr : Option (List Char)) :
    ∀ parts : List (List Char),
      (punctLoop m hdr parts).1 = (candPairs parts).filterMap
        (fun c => if strip c ≠ [] ∧ ((strip c).length : Int) ≥ m
          then some (TextSegment.mk (strip c) hdr false) else none) := by
  intro parts
  induction parts using punctLoop.induct m hdr with
  | case1 => rfl
  | case2 t => rfl
  | case3 t p rest ih =>
    simp only [punctLoop, candPairs, List.filterMap_cons]
    by_cases hcond : strip (t ++ p) ≠ [] ∧ ((strip (t ++ p)).length : Int) ≥ m
    · rw [if_pos hcond, if_pos hcond, ih]
      rfl
    · rw [if_neg hcond, if_neg hcond, ih]
      rfl

theorem punctLoop_mem {m : Int} {hdr : Option (List Char)} {parts : List (List Char)}
    {s : TextSegment} (h : s ∈ (punctLoop m hdr parts).1) :
    s.is_header = false ∧ s.header = hdr ∧ strip s.text ≠ [] ∧ (s.text.length : Int) ≥ m := by
  rw [punctLoop_fst_eq] at h
  obtain ⟨c, -, hif⟩ := List.mem_filterMap.mp h
  by_cases hcond : strip c ≠ [] ∧ ((strip c).length : Int) ≥ m
  · rw [if_pos hcond] at hif
    cases hif
    exact ⟨rfl, rfl, strip_strip_ne_nil hcond.1, hcond.2⟩
  · rw [if_neg hcond] at hif
    cases hif

theorem handleRemainder_none {m : Int} {result : List TextSegment} {rem : List Char}
    (hres : ∀ t ∈ result, t.is_header = false ∧ t.header = none) :
    ∀ s ∈ handleRemainder m none result rem, s.is_header = false ∧ s.header = none := by
  intro s hs
  simp only [handleRemainder] at hs
  by_cases h0 : strip rem = []
  · rw [if_pos h0] at hs
    exact hres s hs
  · rw [if_neg h0] at hs
    by_cases h1 : ((strip rem).length : Int) ≥ m
    · rw [if_pos h1] at hs
      rcases List.mem_append.mp hs with h | h
      · exact hres s h
      · rcases List.mem_singleton.mp h with rfl
        exact ⟨rfl, rfl⟩
    · rw [if_neg h1] at hs
      rcases List.eq_nil_or_concat result with hres2 | ⟨init, last, hres2⟩
      · subst hres2
        rw [List.getLast?_nil] at hs
        simp only [List.nil_append] at hs
        rcases List.mem_singleton.mp hs with rfl
        exact ⟨rfl, rfl⟩
      · subst hres2
        simp only [List.concat_eq_append] at hs hres ⊢
        rw [List.getLast?_concat] at hs
        simp only [] at hs
        have hlast := hres last (List.mem_append.mpr (Or.inr (List.mem_singleton.mpr rfl)))
        by_cases h2 : last.is_header = false
        · rw [if_pos h2, List.dropLast_concat] at hs
          rcases List.mem_append.mp hs with h | h
          · exact hres s (List.mem_append.mpr (Or.inl h))
          · rcases List.mem_singleton.mp h with rfl
            exact ⟨hlast.1, hlast.2⟩
        · rw [if_neg h2] at hs
          rcases List.mem_append.mp hs with h | h
          · exact hres s h
          · rcases List.mem_singleton.mp h with rfl
            exact ⟨rfl, rfl⟩

theorem handleRemainder_strip_ne {m : Int} {hd : Option (List Char)}
    {result : List TextSegment} {rem : List Char}
    (hres : ∀ t ∈ result, strip t.text ≠ []) :
    ∀ s ∈ handleRemainder m hd result rem, strip s.text ≠ [] := by
  intro s hs
  simp only [handleRemainder] at hs
  by_cases h0 : strip rem = []
  · rw [if_pos h0] at hs
    exact hres s hs
  · rw [if_neg h0] at hs
    by_cases h1 : ((strip rem).length : Int) ≥ m
    · rw [if_pos h1] at hs
      rcases List.mem_append.mp hs with h | h
      · exact hres s h
      · rcases List.mem_singleton.mp h with rfl
        exact strip_strip_ne_nil h0
    · rw [if_neg h1] at hs
      rcases List.eq_nil_or_concat result with hres2 | ⟨init, last, hres2⟩
      · subst hres2
        rw [List.getLast?_nil] at hs
        simp only [List.nil_append] at hs
        rcases List.mem_singleton.mp hs with rfl
        exact strip_strip_ne_nil h0
      · subst hres2
        simp only [List.concat_eq_append] at hs hres ⊢
        rw [List.getLast?_concat] at hs
        simp only [] at hs
        by_cases h2 : last.is_header = false
        · rw [if_pos h2, List.dropLast_concat] at hs
          rcases List.mem_append.mp hs with h | h
          · exact hres s (List.mem_append.mpr (Or.inl h))
          · rcases List.mem_singleton.mp h with rfl
            obtain ⟨c, hc, hcw⟩ := exists_of_strip_ne_nil h0
            exact strip_ne_nil_of_mem
              (List.mem_append.mpr (Or.inr (List.mem_cons_of_mem ' ' (mem_strip hc hcw)))) hcw
        · rw [if_neg h2] at hs
          rcases List.mem_append.mp hs with h | h
          · exact hres s h
          · rcases List.mem_singleton.mp h with rfl
            exact strip_strip_ne_nil h0

theorem punctGo_none (m : Int) :
    ∀ (segs result : List TextSegment),
      (∀ t ∈ segs, t.is_header = false ∧ t.header = none) →
      (∀ t ∈ result, t.is_header = false ∧ t.header = none) →
      ∀ s ∈ punctGo m segs result, s.is_header = false ∧ s.header = none := by
  intro segs
  induction segs with
  | nil =>
    intro result _ hres s hs
    exact hres s hs
  | cons seg rest ih =>
    intro result hsegs hres s hs
    rw [punctGo] at hs
    have hseg := hsegs seg (List.mem_cons_self seg rest)
    rw [if_neg (by simp [hseg.1])] at hs
    have hhdr : seg.header = none := hseg.2
    refine ih _ (fun t ht => hsegs t (List.mem_cons_of_mem seg ht)) ?_ s hs
    rw [hhdr] at hs ⊢
    intro t ht
    refine handleRemainder_none ?_ t ht
    intro u hu
    rcases List.mem_append.mp hu with h | h
    · exact hres u h
    · have := punctLoop_mem h
      exact ⟨this.1, this.2.1⟩

theorem punctGo_strip_ne (m : Int) :
    ∀ (segs result : List TextSegment),
      (∀ t ∈ segs, strip t.text ≠ []) →
      (∀ t ∈ result, strip t.text ≠ []) →
      ∀ s ∈ punctGo m segs result, strip s.text ≠ [] := by
  intro segs
  induction segs with
  | nil =>
    intro result _ hres s hs
    exact hres s hs
  | cons seg rest ih =>
    intro result hsegs hres s hs
    rw [punctGo] at hs
    by_cases hh : seg.is_header
    · rw [if_pos hh] at hs
      refine ih _ (fun t ht => hsegs t (List.mem_cons_of_mem seg ht)) ?_ s hs
      intro t ht
      rcases List.mem_append.mp ht with h | h
      · exact hres t h
      · rcases List.mem_singleton.mp h with rfl
        exact hsegs t (List.mem_cons_self t rest)
    · rw [if_neg hh] at hs
      refine ih _ (fun t ht => hsegs t (List.mem_cons_of_mem seg ht)) ?_ s hs
      intro t ht
      refine handleRemainder_strip_ne ?_ t ht
      intro u hu
      rcases List.mem_append.mp hu with h | h
      · exact hres u h
      · exact (punctLoop_mem h).2.2.1

/-! The exception-explicit parser agrees with the total one. -/

theorem handleRemainderE_eq (m : Int) (hd : Option (List Char)) (result : List TextSegment)
    (rem : List Char) :
    handleRemainderE m hd result rem = Except.ok (handleRemainder m hd result rem) := by
  simp only [handleRemainderE, handleRemainder]
  by_cases h0 : strip rem = []
  · rw [if_pos h0, if_pos h0]
  · rw [if_neg h0, if_neg h0]
    by_cases h1 : ((strip rem).length : Int) ≥ m
    · rw [if_pos h1, if_pos h1]
    · rw [if_neg h1, if_neg h1]
      cases result with
      | nil =>
        rw [List.getLast?_nil]
      | cons a l =>
        have hne : (a :: l).getLast? ≠ none := by
          simp [List.getLast?_eq_none_iff]
        cases hg : (a :: l).getLast? with
        | none => exact absurd hg hne
        | some last =>
          simp only [pyNegOneIndex, pySetLastText, hg]
          by_cases h2 : last.is_header = false
          · rw [if_pos h2, if_pos h2]
          · rw [if_neg h2, if_neg h2]

theorem punctGoE_eq (m : Int) :
    ∀ (segs result : List TextSegment),
      punctGoE m segs result = Except.ok (punctGo m segs result) := by
  intro segs
  induction segs with
  | nil => intro result; rfl
  | cons seg rest ih =>
    intro result
    simp only [punctGoE, punctGo]
    by_cases hh : seg.is_header
    · rw [if_pos hh, if_pos hh]
      exact ih _
    · rw [if_neg hh, if_neg hh]
      rw [handleRemainderE_eq]
      exact ih _

/-! Cross-segment behaviour of the punctuation loop. -/

theorem punctGo_append (m : Int) (a b result : List TextSegment) :
    punctGo m (a ++ b) result = punctGo m b (punctGo m a result) := by
  induction a generalizing result with
  | nil => rfl
  | cons seg rest ih =>
    rw [List.cons_append]
    simp only [punctGo]
    by_cases hh : seg.is_header
    · rw [if_pos hh, if_pos hh]
      exact ih _
    · rw [if_neg hh, if_neg hh]
      exact ih _

/-! The claims. -/

/-- C1, counterexample: on the spec's own scenario input with
`min_segment_length = 10`, `parse` does NOT return the three claimed
segments — the final minimum-length filter (src/parser.py line 69) also
drops the header segment, whose text `Intro` has length 5 < 10. -/
theorem C1_counterexample :
    parse true true 10
        ("# Intro\nHello world. This is a test sentence that is long enough.".toList) ≠
      [TextSegment.mk ("Intro".toList) (some ("Intro".toList)) true,
       TextSegment.mk ("Hello world.".toList) (some ("Intro".toList)) false,
       TextSegment.mk ("This is a test sentence that is long enough.".toList)
         (some ("Intro".toList)) false] := by
  decide

/-- C1 (amended): for the scenario input with `min_segment_length = 10`,
`parse` returns exactly the two content segments `Hello world.` and
`This is a test sentence that is long enough.`, both under header
`Intro` with `is_header` false; the header segment itself is removed by
the final minimum-length filter because its text is shorter than 10. -/
theorem C1_header_dropped_by_min_filter :
    parse true true 10
        ("# Intro\nHello world. This is a test sentence that is long enough.".toList) =
      [TextSegment.mk ("Hello world.".toList) (some ("Intro".toList)) false,
       TextSegment.mk ("This is a test sentence that is long enough.".toList)
         (some ("Intro".toList)) false] := by
  decide

/-- C2, counterexample: for input `hi` with `min_segment_length = 10`,
the punctuation-splitting stage does emit the short trailing remainder
as its own segment, but `parse` returns the empty list — the final
minimum-length filter removes the lenient segment again, so the
remainder's text is NOT present in what `parse` returns. -/
theorem C2_counterexample :
    splitByPunctuation 10 (initialSegments true ("hi".toList)) =
      [TextSegment.mk ("hi".toList) none false] ∧
    parse true true 10 ("hi".toList) = [] := by
  decide

/-- C2 (amended): when the trailing remainder is non-empty but shorter
than `min_segment_length` and no previously emitted non-header segment
exists to merge into (the result list is empty or ends with a header
segment), the punctuation-splitting stage emits the remainder as its own
segment — it is present in that stage's output; `parse`'s final
minimum-length filter subsequently drops it, so it does not survive to
`parse`'s returned sequence (see the counterexample). -/
theorem C2_short_remainder_emitted (m : Int) (hdr : Option (List Char))
    (result : List TextSegment) (rem : List Char)
    (h1 : strip rem ≠ []) (h2 : ((strip rem).length : Int) < m)
    (h3 : result = [] ∨ ∃ last, result.getLast? = some last ∧ last.is_header = true) :
    handleRemainder m hdr result rem = result ++ [TextSegment.mk (strip rem) hdr false] := by
  simp only [handleRemainder]
  rw [if_neg h1, if_neg (by omega : ¬ ((strip rem).length : Int) ≥ m)]
  rcases h3 with rfl | ⟨last, hlast, hhdr⟩
  · rw [List.getLast?_nil]
  · rw [hlast]
    simp only []
    rw [if_neg (by simp [hhdr])]

theorem C2_short_remainder_emitted_witness :
    handleRemainder 10 none [] ("hi".toList) =
      [] ++ [TextSegment.mk (strip ("hi".toList)) none false] :=
  C2_short_remainder_emitted 10 none [] ("hi".toList) (by decide) (by decide) (Or.inl rfl)

/-- C3: for all text none of whose lines matches the header pattern,
parsing with `split_by_headers = true` (any punctuation option, any
minimum length) yields no segment with `is_header = true`, and every
output segment's `header` is absent. -/
theorem C3_no_headers_in_output (sp : Bool) (m : Int) (text : List Char)
    (hl : ∀ line ∈ splitLines text, headerMatch (strip line) = none) :
    ∀ s ∈ parse true sp m text, s.is_header = false ∧ s.header = none := by
  intro s hs
  simp only [parse] at hs
  by_cases h0 : strip text = []
  · rw [if_pos h0] at hs
    cases hs
  · rw [if_neg h0] at hs
    have hs1 : s ∈ (if sp then splitByPunctuation m (initialSegments true text)
        else initialSegments true text) := (List.mem_filter.mp hs).1
    have hstage1 : ∀ t ∈ initialSegments true text, t.is_header = false ∧ t.header = none := by
      intro t ht
      simp only [initialSegments, if_pos, splitByHeaders] at ht
      exact headersGo_no_header hl [] t ht
    by_cases hsp : sp
    · rw [if_pos hsp] at hs1
      simp only [splitByPunctuation] at hs1
      exact punctGo_none m _ [] hstage1 (by intro t ht; cases ht) s hs1
    · rw [if_neg hsp] at hs1
      exact hstage1 s hs1

theorem C3_witness :
    (TextSegment.mk ("Hello there.".toList) none false).is_header = false ∧
    (TextSegment.mk ("Hello there.".toList) none false).header = none :=
  C3_no_headers_in_output true 0 ("Hello there.".toList) (by decide)
    (TextSegment.mk ("Hello there.".toList) none false) (by decide)

/-- C4, counterexample: with `min_segment_length = 4`, the middle
sentence `Bb.` of `Aaaa. Bb. Cccc.` is silently dropped by the candidate
loop, no merge occurs in this run, and the non-whitespace character `B`
of the input appears in no output segment — so concatenating the output
texts cannot reconstruct the original content modulo whitespace
collapsing. -/
theorem C4_counterexample :
    ('B' ∈ ("Aaaa. Bb. Cccc.".toList)) ∧
    ('B' ∉ segTexts (parse true true 4 ("Aaaa. Bb. Cccc.".toList))) ∧
    pySpace 'B' = false := by
  decide

/-- C4 (amended): no characters are invented — for every input and every
option combination, the non-whitespace characters of the concatenation,
in order, of the `text` fields of the segments `parse` returns form a
sublist (order-preserving selection) of the non-whitespace characters of
the input.  Full reconstruction fails in general because the
minimum-length filter drops short candidates and `#` header markers are
removed (see the counterexample). -/
theorem C4_no_invented_characters (sh sp : Bool) (m : Int) (text : List Char) :
    (nonWs (segTexts (parse sh sp m text))).Sublist (nonWs text) := by
  simp only [parse]
  by_cases h0 : strip text = []
  · rw [if_pos h0]
    simp [segTexts, nonWs]
  · rw [if_neg h0]
    have h1 : (nonWs (segTexts (initialSegments sh text))).Sublist (nonWs text) := by
      simp only [initialSegments]
      by_cases hsh : sh
      · rw [if_pos hsh]
        exact splitByHeaders_nonWs text
      · rw [if_neg hsh]
        rw [segTexts_singleton]
        show (nonWs (strip text)).Sublist (nonWs text)
        rw [nonWs_strip]
    have h2 : (nonWs (segTexts (if sp then splitByPunctuation m (initialSegments sh text)
        else initialSegments sh text))).Sublist (nonWs (segTexts (initialSegments sh text))) := by
      by_cases hsp : sp
      · rw [if_pos hsp]
        exact splitByPunctuation_nonWs m _
      · rw [if_neg hsp]
    exact (List.Sublist.filter _ (sublist_segTexts (List.filter_sublist _))).trans (h2.trans h1)

/-- C5: in the candidate loop of punctuation splitting, a candidate
sentence (text part plus its punctuation part) whose trimmed text is
non-empty and of length exactly `min_segment_length` is emitted into the
stage output, while a candidate of trimmed length exactly
`min_segment_length - 1` is not emitted at that stage — no emitted
segment carries its text. -/
theorem C5_min_length_boundary (m : Int) (hdr : Option (List Char)) (parts : List (List Char))
    (c : List Char) (hc : c ∈ candPairs parts) :
    (((strip c).length : Int) = m → strip c ≠ [] →
      TextSegment.mk (strip c) hdr false ∈ (punctLoop m hdr parts).1) ∧
    (((strip c).length : Int) = m - 1 →
      ∀ s ∈ (punctLoop m hdr parts).1, s.text ≠ strip c) := by
  constructor
  · intro hlen hne
    rw [punctLoop_fst_eq]
    refine List.mem_filterMap.mpr ⟨c, hc, ?_⟩
    rw [if_pos ⟨hne, hlen.ge⟩]
  · intro hlen s hsmem heq
    have hm := (punctLoop_mem hsmem).2.2.2
    rw [heq] at hm
    rw [hlen] at hm
    omega

theorem C5_min_length_boundary_witness :
    TextSegment.mk (strip ("ab.".toList)) none false ∈
      (punctLoop 3 none (reSplitPunct ("ab. c".toList))).1 :=
  (C5_min_length_boundary 3 none (reSplitPunct ("ab. c".toList)) ("ab.".toList)
    (by decide)).1 (by decide) (by decide)

/-- C6: with `split_by_headers = false` the whole document `A. B. C.`
first becomes the single trimmed content segment `A. B. C.` with absent
header, and with `min_segment_length = 1` `parse` then returns exactly
the three content segments `A.`, `B.`, `C.` in order, each with absent
header. -/
theorem C6_scenario_abc :
    initialSegments false ("A. B. C.".toList) =
      [TextSegment.mk ("A. B. C.".toList) none false] ∧
    parse false true 1 ("A. B. C.".toList) =
      [TextSegment.mk ("A.".toList) none false, TextSegment.mk ("B.".toList) none false,
       TextSegment.mk ("C.".toList) none false] := by
  decide

/-- C7: `parse` never raises — the exception-explicit embedding, in
which the guarded `result[-1]` subscripts of the source are modelled as
possibly-failing operations, returns `Except.ok` of the total parse
result for every input string and every option combination. -/
theorem C7_parse_never_raises (sh sp : Bool) (m : Int) (text : List Char) :
    parseE sh sp m text = Except.ok (parse sh sp m text) := by
  simp only [parseE, parse]
  by_cases h0 : strip text = []
  · rw [if_pos h0, if_pos h0]
  · rw [if_neg h0, if_neg h0]
    by_cases hsp : sp
    · rw [if_pos hsp, if_pos hsp]
      rw [punctGoE_eq]
      rfl
    · rw [if_neg hsp, if_neg hsp]

/-- C8: for every input and every option combination (including
`min_segment_length = 0`), every segment `parse` returns has a text
whose trimmed value is non-empty — empty segments are already dropped
during construction, not only by the minimum-length filter. -/
theorem C8_text_nonempty_after_trim (sh sp : Bool) (m : Int) (text : List Char) :
    ∀ s ∈ parse sh sp m text, strip s.text ≠ [] := by
  intro s hs
  simp only [parse] at hs
  by_cases h0 : strip text = []
  · rw [if_pos h0] at hs
    cases hs
  · rw [if_neg h0] at hs
    have hs1 : s ∈ (if sp then splitByPunctuation m (initialSegments sh text)
        else initialSegments sh text) := (List.mem_filter.mp hs).1
    have hstage1 : ∀ t ∈ initialSegments sh text, strip t.text ≠ [] := by
      intro t ht
      simp only [initialSegments] at ht
      by_cases hsh : sh
      · rw [if_pos hsh] at ht
        simp only [splitByHeaders] at ht
        exact headersGo_strip_ne _ _ _ t ht
      · rw [if_neg hsh] at ht
        rcases List.mem_singleton.mp ht with rfl
        exact strip_strip_ne_nil h0
    by_cases hsp : sp
    · rw [if_pos hsp] at hs1
      simp only [splitByPunctuation] at hs1
      exact punctGo_strip_ne m _ [] hstage1 (by intro t ht; cases ht) s hs1
    · rw [if_neg hsp] at hs1
      exact hstage1 s hs1

theorem C8_text_nonempty_after_trim_witness :
    strip (TextSegment.mk ("Hi.".toList) none false).text ≠ [] :=
  C8_text_nonempty_after_trim true true 0 ("Hi.".toList)
    (TextSegment.mk ("Hi.".toList) none false) (by decide)

/-- C9: the combiner rejects an empty input list — `combine_audio_files`
raises `ValueError("No audio files to combine")` before any output is
produced whenever `segment_files` is empty, for every output path and
normalisation choice. -/
theorem C9_combine_empty_input_fails (output_path : String) (normalize : Bool) :
    combine_audio_files [] output_path normalize =
      CombineOutcome.raiseValueError "No audio files to combine" := rfl

/-- C10: the previous emitted segment a short trailing remainder is
appended to is the last segment emitted overall, across input-segment
boundaries: when a non-header segment produces no candidate emissions
and a short non-empty remainder, and the output accumulated from the
earlier segments ends in a non-header segment, that earlier segment is
the merge target — only its `text` field changes (space-joined), its
`header` and `is_header` fields keep the earlier section's values, and
the remainder's own `header` value does not enter the output. -/
theorem C10_remainder_merges_across_segments (m : Int) (pre : List TextSegment)
    (seg last : TextSegment) (front : List TextSegment)
    (hpre : punctGo m pre [] = front ++ [last])
    (hlast : last.is_header = false)
    (hseg : seg.is_header = false)
    (hemit : (punctLoop m seg.header (reSplitPunct seg.text)).1 = [])
    (hrem : strip (punctLoop m seg.header (reSplitPunct seg.text)).2 ≠ [])
    (hshort : ((strip (punctLoop m seg.header (reSplitPunct seg.text)).2).length : Int) < m) :
    splitByPunctuation m (pre ++ [seg]) =
      front ++ [TextSegment.mk
        (last.text ++ ' ' :: strip (punctLoop m seg.header (reSplitPunct seg.text)).2)
        last.header last.is_header] := by
  simp only [splitByPunctuation]
  rw [punctGo_append, hpre]
  simp only [punctGo]
  rw [if_neg (by simp [hseg]), hemit, List.append_nil]
  simp only [handleRemainder]
  rw [if_neg hrem,
    if_neg (by omega :
      ¬ ((strip (punctLoop m seg.header (reSplitPunct seg.text)).2).length : Int) ≥ m),
    List.getLast?_concat]
  simp only []
  rw [if_pos hlast, List.dropLast_concat]

theorem C10_remainder_merges_across_segments_witness :
    splitByPunctuation 10
        ([TextSegment.mk ("This is long enough.".toList) (some ("H1".toList)) false] ++
          [TextSegment.mk ("Short".toList) (some ("H2".toList)) false]) =
      [TextSegment.mk ("This is long enough. Short".toList) (some ("H1".toList)) false] := by
  have h := C10_remainder_merges_across_segments 10
    [TextSegment.mk ("This is long enough.".toList) (some ("H1".toList)) false]
    (TextSegment.mk ("Short".toList) (some ("H2".toList)) false)
    (TextSegment.mk ("This is long enough.".toList) (some ("H1".toList)) false)
    [] (by decide) (by decide) (by decide) (by decide) (by decide) (by decide)
  rw [h]
  decide

end TTS
